import Mathlib

/-!
Verification of the `.env` import/export reconciliation logic of the
bitwarden-secrets-explorer VS Code extension.

The embedding models the pure core of:
  * `parseEnvFile` / `formatEnvFile`   (src/commands/secretCommands.ts, lines 162-188;
    identical copies exist in the variant module)
  * `handleEnvFileExport`              (src/commands/secretCommands.ts, lines 448-615)
  * `writeSecretsToFile`               (variant module, conflict loop aborts on dismissal)
  * the conflict loop of `importSecretsFromEnvCommand` (secretCommands.ts, lines 233-406)

Text is modelled as `List Char`.  JavaScript objects `{ [key: string]: string }`
are modelled as association lists in insertion order with unique keys on all
reachable states; `objSet` is property assignment (in-place update of the first
matching key, else append), `objGet` is property lookup, `objHas` is
`hasOwnProperty`.  (JavaScript additionally fronts integer-like keys in
`Object.keys`; no claim depends on iteration order, so insertion order is used
throughout.)  User interaction (QuickPick answers) is passed in as explicit
values: `Option`-valued answers model dismissal of a prompt as `none`.
-/

/-- Text is a list of characters. -/
abbrev Str := List Char

/-- Whitespace characters removed by JavaScript `String.prototype.trim`
(the ASCII ones plus NBSP and BOM). -/
def jsws (c : Char) : Bool :=
  c == ' ' || c == '\t' || c == '\n' || c == '\r' || c == '\x0b' ||
    c == '\x0c' || c == '\u00a0' || c == '\ufeff'

/-- Remove leading whitespace. -/
def trimLeft : Str → Str
  | [] => []
  | c :: s => if jsws c then trimLeft s else c :: s

/-- Remove trailing whitespace. -/
def trimRight : Str → Str
  | [] => []
  | c :: s =>
    match trimRight s with
    | [] => if jsws c then [] else [c]
    | r => c :: r

/-- JavaScript `line.trim()`. -/
def trim (s : Str) : Str := trimRight (trimLeft s)

/-- JavaScript `content.split('\x7bnewline\x7d')`: split on the newline
character, keeping empty segments; the result is always non-empty. -/
def splitNl : Str → List Str
  | [] => [[]]
  | c :: s =>
    if c = '\n' then [] :: splitNl s
    else
      match splitNl s with
      | [] => [[c]]
      | l :: ls => (c :: l) :: ls

/-- JavaScript `lines.join` with a newline separator. -/
def joinNl : List Str → Str
  | [] => []
  | [l] => l
  | l :: l2 :: ls => l ++ '\n' :: joinNl (l2 :: ls)

/-- JavaScript `s.indexOf('=')`, returned as the pieces before and after the
first `=` character (`none` when there is no `=`). -/
def splitAtFirstEq : Str → Option (Str × Str)
  | [] => none
  | c :: s =>
    if c = '=' then some ([], s)
    else
      match splitAtFirstEq s with
      | none => none
      | some (b, a) => some (c :: b, a)

/-- A parsed `.env` mapping: association list in insertion order. -/
abbrev EnvMapping := List (Str × Str)

/-- JavaScript property lookup `m[k]` (first entry with the key). -/
def objGet : EnvMapping → Str → Option Str
  | [], _ => none
  | p :: m, k => if p.1 = k then some p.2 else objGet m k

/-- JavaScript `m.hasOwnProperty(k)`. -/
def objHas (m : EnvMapping) (k : Str) : Bool := (objGet m k).isSome

/-- Lookup with the empty string as default (entries looked up by the source
always exist, so the default is never observable on reachable states). -/
def objGetD (m : EnvMapping) (k : Str) : Str := (objGet m k).getD []

/-- JavaScript property assignment `m[k] = v`: update in place when the key is
present, otherwise append. -/
def objSet : EnvMapping → Str → Str → EnvMapping
  | [], k, v => [(k, v)]
  | p :: m, k, v => if p.1 = k then (k, v) :: m else p :: objSet m k v

/-- JavaScript `Object.keys(m)` (insertion order). -/
def objKeys (m : EnvMapping) : List Str := m.map Prod.fst

/-- Body of the per-line loop of `parseEnvFile` (secretCommands.ts lines 166-176):
trim the line, skip empty and comment lines, skip lines whose first `=` is
missing or at position 0, otherwise store the trimmed key and value. -/
def parseLine (acc : EnvMapping) (line : Str) : EnvMapping :=
  if trim line = [] then acc
  else if (trim line).head? = some '#' then acc
  else
    match splitAtFirstEq (trim line) with
    | none => acc
    | some (b, a) => if b = [] then acc else objSet acc (trim b) (trim a)

/-- Fold of `parseLine` over a list of lines. -/
def parseLines (acc : EnvMapping) (lines : List Str) : EnvMapping :=
  lines.foldl parseLine acc

/-- The function `parseEnvFile` (secretCommands.ts lines 162-179). -/
def parseEnvFile (content : Str) : EnvMapping := parseLines [] (splitNl content)

/-- One serialized line of `formatEnvFile`. -/
def entryLine (p : Str × Str) : Str := p.1 ++ '=' :: p.2

/-- The function `formatEnvFile` (secretCommands.ts lines 184-188): one `key=value` line per
entry, newline-joined. -/
def formatEnvFile (m : EnvMapping) : Str := joinNl (m.map entryLine)

/-- The three bulk conflict policies offered by the export QuickPick. -/
inductive ConflictAction
  | overwriteAll
  | perKey
  | skipAll
deriving DecidableEq

/-- Keys of the incoming secret data that already exist in the file
(secretCommands.ts lines 530-539). -/
def conflictsOf (ex sd : EnvMapping) : List Str :=
  (objKeys sd).filter (fun k => objHas ex k)

/-- Keys of the incoming secret data that are new to the file. -/
def newKeysOf (ex sd : EnvMapping) : List Str :=
  (objKeys sd).filter (fun k => ! objHas ex k)

/-- Fold that assigns each listed key its incoming value. -/
def setAll (sd : EnvMapping) (ks : List Str) (acc : EnvMapping) : EnvMapping :=
  ks.foldl (fun a k => objSet a k (objGetD sd k)) acc

/-- Per-key loop of `handleEnvFileExport` (secretCommands.ts lines 566-581):
the answer `some true` is the Yes option; `some false` is No; `none` models a
dismissed prompt, which the source treats exactly like No and continues. -/
def setSome (sd : EnvMapping) (ans : Str → Option Bool) (ks : List Str)
    (acc : EnvMapping) : EnvMapping :=
  ks.foldl (fun a k => if ans k = some true then objSet a k (objGetD sd k) else a) acc

/-- Conflict handling of `handleEnvFileExport` (secretCommands.ts lines
541-587): no prompt when there is no conflict; `act = none` models dismissal
of the bulk QuickPick, which aborts. -/
def stepOneHandle (ex sd : EnvMapping) (act : Option ConflictAction)
    (ans : Str → Option Bool) : Option EnvMapping :=
  if (conflictsOf ex sd).isEmpty then some ex
  else
    match act with
    | none => none
    | some ConflictAction.overwriteAll => some (setAll sd (conflictsOf ex sd) ex)
    | some ConflictAction.perKey => some (setSome sd ans (conflictsOf ex sd) ex)
    | some ConflictAction.skipAll => some ex

/-- Result written and reported by the export (content, `addedCount`,
`updatedCount`; secretCommands.ts lines 589-608). -/
structure ExportResult where
  content : EnvMapping
  added : Nat
  updated : Nat
deriving DecidableEq

/-- Final content and counts of `handleEnvFileExport` after conflict handling
(secretCommands.ts lines 589-608): add the new keys, then report
`added = newSecrets.length` and
`updated` counting the conflicts whose final value equals the incoming one. -/
def mkExportResult (ex sd : EnvMapping) (fc1 : EnvMapping) : ExportResult :=
  let final := setAll sd (newKeysOf ex sd) fc1
  { content := final
    added := (newKeysOf ex sd).length
    updated := ((conflictsOf ex sd).filter
      (fun k => decide (objGetD final k = objGetD sd k))).length }

/-- Pure core of `handleEnvFileExport` (secretCommands.ts lines 529-608),
from the conflict classification to the written content and reported counts.
`none` means the operation returned before writing the file. -/
def handleEnvFileExport (ex sd : EnvMapping) (act : Option ConflictAction)
    (ans : Str → Option Bool) : Option ExportResult :=
  (stepOneHandle ex sd act ans).map (mkExportResult ex sd)

/-- Per-key loop of the variant `writeSecretsToFile`: `some true` is the
Overwrite option, `some false` is Keep existing, and `none` (dismissed prompt)
aborts the whole operation before anything is written. -/
def perKeyLoop (sd : EnvMapping) (choose : Str → Option Bool) :
    List Str → EnvMapping → Option EnvMapping
  | [], acc => some acc
  | k :: ks, acc =>
    match choose k with
    | none => none
    | some b =>
      perKeyLoop sd choose ks (if b then objSet acc k (objGetD sd k) else acc)

/-- Conflict handling of the variant `writeSecretsToFile` (same branches as
`stepOneHandle` except that the per-key loop can abort). -/
def stepOneWrite (ex sd : EnvMapping) (act : Option ConflictAction)
    (choose : Str → Option Bool) : Option EnvMapping :=
  if (conflictsOf ex sd).isEmpty then some ex
  else
    match act with
    | none => none
    | some ConflictAction.overwriteAll => some (setAll sd (conflictsOf ex sd) ex)
    | some ConflictAction.perKey => perKeyLoop sd choose (conflictsOf ex sd) ex
    | some ConflictAction.skipAll => some ex

/-- Result written and reported by the variant export (content plus the
`added`, `updated`, `total` counts of its information message). -/
structure WriteResult where
  content : EnvMapping
  added : Nat
  updated : Nat
  total : Nat
deriving DecidableEq

/-- Final content and counts of the variant `writeSecretsToFile`. -/
def mkWriteResult (ex sd : EnvMapping) (fc1 : EnvMapping) : WriteResult :=
  let final := setAll sd (newKeysOf ex sd) fc1
  { content := final
    added := (newKeysOf ex sd).length
    updated := ((conflictsOf ex sd).filter
      (fun k => decide (objGetD final k = objGetD sd k))).length
    total := final.length }

/-- Pure core of the variant `writeSecretsToFile`: `none` means the operation
returned before writing the file. -/
def writeSecretsToFile (ex sd : EnvMapping) (act : Option ConflictAction)
    (choose : Str → Option Bool) : Option WriteResult :=
  (stepOneWrite ex sd act choose).map (mkWriteResult ex sd)

/-- Options of the per-conflict QuickPick of `importSecretsFromEnvCommand`;
`cancel` also covers a dismissed prompt. -/
inductive ImportChoice
  | skip
  | overwrite
  | cancel
deriving DecidableEq

/-- Secret-store side effects of one run of the import command. -/
structure ImportOutcome where
  aborted : Bool
  deleted : List Str
  created : List (Str × Str)
deriving DecidableEq

/-- Conflict loop of `importSecretsFromEnvCommand` (secretCommands.ts lines
307-339): asks per conflicting key; Cancel (or dismissal) returns at once,
Overwrite records the key for import and deletes the existing secret
immediately, Skip does nothing.  Returns (cancelled?, deleted keys, keys to
import). -/
def importConflictLoop (choice : Str → ImportChoice) :
    List Str → List Str → List Str → Bool × List Str × List Str
  | [], deleted, toImport => (false, deleted, toImport)
  | k :: ks, deleted, toImport =>
    match choice k with
    | ImportChoice.cancel => (true, deleted, toImport)
    | ImportChoice.skip => importConflictLoop choice ks deleted toImport
    | ImportChoice.overwrite =>
      importConflictLoop choice ks (deleted ++ [k]) (toImport ++ [k])

/-- Pure core of `importSecretsFromEnvCommand` (secretCommands.ts lines
286-380): classify the parsed keys against the existing secret labels, run the
conflict loop, and on completion create one secret per remaining key.  Secrets
deleted inside the loop stay deleted even when the user cancels later. -/
def importSecretsFromEnv (envData : EnvMapping) (existingKeys : List Str)
    (choice : Str → ImportChoice) : ImportOutcome :=
  match importConflictLoop choice
      ((objKeys envData).filter (fun k => existingKeys.contains k)) []
      ((objKeys envData).filter (fun k => ! existingKeys.contains k)) with
  | (true, deleted, _) => { aborted := true, deleted := deleted, created := [] }
  | (false, deleted, toImport) =>
    { aborted := false, deleted := deleted
      created := toImport.map (fun k => (k, objGetD envData k)) }

/-- A line the parser drops: empty after trimming, a comment, no `=`, or `=`
at position 0. -/
def malformedLine (l : Str) : Bool :=
  decide (trim l = []) || decide ((trim l).head? = some '#') ||
    (match splitAtFirstEq (trim l) with
     | none => true
     | some (b, _) => decide (b = []))

/-- A well-formed `key=value` line: the parser keeps it. -/
def wellFormedLine (l : Str) : Bool := ! malformedLine l

/-- Whether a conflicting key receives the incoming value under the given
policy and per-key answers. -/
def overwrites (a : ConflictAction) (ans : Str → Option Bool) (k : Str) : Bool :=
  match a with
  | ConflictAction.overwriteAll => true
  | ConflictAction.skipAll => false
  | ConflictAction.perKey => decide (ans k = some true)

/-- Well-formedness of a parsed key (established for all parser output). -/
def goodKey (k : Str) : Prop :=
  k ≠ [] ∧ trimLeft k = k ∧ trimRight k = k ∧ '=' ∉ k ∧ '\n' ∉ k ∧
    k.head? ≠ some '#'

/-- Well-formedness of a parsed value (established for all parser output). -/
def goodVal (v : Str) : Prop :=
  trimLeft v = v ∧ trimRight v = v ∧ '\n' ∉ v

/-- Every entry of the mapping is well-formed. -/
def goodEntries (m : EnvMapping) : Prop := ∀ p ∈ m, goodKey p.1 ∧ goodVal p.2

/-! ### Basic lemmas about trimming -/

theorem length_trimLeft_le (s : Str) : (trimLeft s).length ≤ s.length := by
  induction s with
  | nil => simp [trimLeft]
  | cons c s ih =>
    by_cases h : jsws c <;> simp [trimLeft, h]
    exact Nat.le_succ_of_le ih

theorem length_trimRight_le (s : Str) : (trimRight s).length ≤ s.length := by
  induction s with
  | nil => simp [trimRight]
  | cons c s ih =>
    cases h : trimRight s with
    | nil => by_cases hw : jsws c <;> simp [trimRight, h, hw]
    | cons r rs =>
      simp only [trimRight, h]
      have := ih
      rw [h] at this
      simpa using Nat.succ_le_succ this

theorem trimLeft_cons_not_ws {c : Char} (h : jsws c = false) (s : Str) :
    trimLeft (c :: s) = c :: s := by
  simp [trimLeft, h]

theorem trimRight_cons_not_ws {c : Char} (h : jsws c = false) (s : Str) :
    trimRight (c :: s) = c :: trimRight s := by
  cases hs : trimRight s <;> simp [trimRight, hs, h]

theorem not_ws_of_trimLeft_eq_cons {s : Str} {c : Char} {r : Str}
    (h : trimLeft s = c :: r) : jsws c = false := by
  induction s with
  | nil => simp [trimLeft] at h
  | cons d s ih =>
    by_cases hd : jsws d
    · exact ih (by simpa [trimLeft, hd] using h)
    · simp only [trimLeft, hd, if_false] at h
      cases h
      simpa using hd

theorem trimLeft_idem (s : Str) : trimLeft (trimLeft s) = trimLeft s := by
  induction s with
  | nil => rfl
  | cons c s ih =>
    by_cases h : jsws c <;> simp [trimLeft, h]
    exact ih

theorem trimRight_cons_of_ne_nil {s : Str} (h : trimRight s ≠ []) (c : Char) :
    trimRight (c :: s) = c :: trimRight s := by
  cases hs : trimRight s with
  | nil => exact absurd hs h
  | cons r rs => simp [trimRight, hs]

theorem trimRight_idem (s : Str) : trimRight (trimRight s) = trimRight s := by
  induction s with
  | nil => rfl
  | cons c s ih =>
    cases hs : trimRight s with
    | nil =>
      by_cases hw : jsws c <;> simp [trimRight, hs, hw]
    | cons r rs =>
      rw [hs] at ih
      have h2 : trimRight s ≠ [] := by simp [hs]
      rw [trimRight_cons_of_ne_nil h2, hs,
        trimRight_cons_of_ne_nil (by simp [ih]), ih]

theorem trimLeft_trimRight_of_fixed {s : Str} (h : trimLeft s = s) :
    trimLeft (trimRight s) = trimRight s := by
  cases s with
  | nil => rfl
  | cons c s =>
    have hc : jsws c = false := not_ws_of_trimLeft_eq_cons h
    rw [trimRight_cons_not_ws hc]
    exact trimLeft_cons_not_ws hc _

theorem trimLeft_trim (s : Str) : trimLeft (trim s) = trim s :=
  trimLeft_trimRight_of_fixed (trimLeft_idem s)

theorem trimRight_trim (s : Str) : trimRight (trim s) = trim s :=
  trimRight_idem (trimLeft s)

theorem mem_of_mem_trimLeft {x : Char} {s : Str} (h : x ∈ trimLeft s) : x ∈ s := by
  induction s with
  | nil => simp [trimLeft] at h
  | cons c s ih =>
    by_cases hc : jsws c
    · simp only [trimLeft, hc, if_true] at h
      exact List.mem_cons_of_mem _ (ih h)
    · simpa [trimLeft, hc] using h

theorem mem_of_mem_trimRight {x : Char} {s : Str} (h : x ∈ trimRight s) : x ∈ s := by
  induction s with
  | nil => simp [trimRight] at h
  | cons c s ih =>
    cases hs : trimRight s with
    | nil =>
      by_cases hw : jsws c
      · simp [trimRight, hs, hw] at h
      · simp only [trimRight, hs, hw] at h
        simp at h
        simp [h]
    | cons r rs =>
      rw [trimRight_cons_of_ne_nil (by simp [hs])] at h
      rcases List.mem_cons.mp h with h | h
      · simp [h]
      · exact List.mem_cons_of_mem _ (ih h)

theorem mem_of_mem_trim {x : Char} {s : Str} (h : x ∈ trim s) : x ∈ s :=
  mem_of_mem_trimLeft (mem_of_mem_trimRight h)

theorem trimRight_concat_not_ws {d : Char} (h : jsws d = false) :
    ∀ s : Str, trimRight (s ++ [d]) = s ++ [d] := by
  intro s
  induction s with
  | nil => simp [trimRight, h]
  | cons c s ih =>
    have hne : trimRight (s ++ [d]) ≠ [] := by rw [ih]; simp
    rw [List.cons_append, trimRight_cons_of_ne_nil hne, ih]

theorem trimRight_concat_ws {d : Char} (h : jsws d = true) :
    ∀ s : Str, trimRight (s ++ [d]) = trimRight s := by
  intro s
  induction s with
  | nil => simp [trimRight, h]
  | cons c s ih =>
    cases hs : trimRight s with
    | nil =>
      have hs2 : trimRight (s ++ [d]) = [] := by rw [ih, hs]
      simp [trimRight, hs, hs2]
    | cons r rs =>
      have hs2 : trimRight (s ++ [d]) = r :: rs := by rw [ih, hs]
      rw [List.cons_append, trimRight_cons_of_ne_nil (by simp [hs2]),
        trimRight_cons_of_ne_nil (by simp [hs]), ih]

/-! ### Lemmas about splitting at the first equals sign -/

theorem splitAtFirstEq_eq_some {s b a : Str}
    (h : splitAtFirstEq s = some (b, a)) : s = b ++ '=' :: a ∧ '=' ∉ b := by
  induction s generalizing b a with
  | nil => simp [splitAtFirstEq] at h
  | cons c s ih =>
    by_cases hc : c = '='
    · subst hc
      simp only [splitAtFirstEq, if_pos rfl] at h
      cases h
      simp
    · simp only [splitAtFirstEq, hc, if_false] at h
      cases hsp : splitAtFirstEq s with
      | none => rw [hsp] at h; simp at h
      | some p =>
        obtain ⟨b0, a0⟩ := p
        rw [hsp] at h
        simp only [Option.some.injEq, Prod.mk.injEq] at h
        obtain ⟨hb, ha⟩ := h
        obtain ⟨hs, hnb⟩ := ih hsp
        subst hb
        subst ha
        subst hs
        refine ⟨rfl, ?_⟩
        intro hm
        rcases List.mem_cons.mp hm with h | h
        · exact hc h.symm
        · exact hnb h

theorem splitAtFirstEq_append {k : Str} (hk : '=' ∉ k) (v : Str) :
    splitAtFirstEq (k ++ '=' :: v) = some (k, v) := by
  induction k with
  | nil => simp [splitAtFirstEq]
  | cons c k ih =>
    have hc : ¬ c = '=' := by
      intro h
      exact hk (by simp [h])
    have hk2 : '=' ∉ k := fun h => hk (List.mem_cons_of_mem _ h)
    rw [List.cons_append]
    simp only [splitAtFirstEq, hc, if_false]
    rw [ih hk2]

/-! ### Lemmas about splitting and joining lines -/

theorem splitNl_ne_nil (s : Str) : splitNl s ≠ [] := by
  induction s with
  | nil => simp [splitNl]
  | cons c s ih =>
    by_cases hc : c = '\n'
    · simp [splitNl, hc]
    · cases hs : splitNl s with
      | nil => exact absurd hs ih
      | cons l ls => simp [splitNl, hc, hs]

theorem splitNl_no_newline {s : Str} (h : '\n' ∉ s) : splitNl s = [s] := by
  induction s with
  | nil => rfl
  | cons c s ih =>
    have hc : ¬ c = '\n' := fun hh => h (by simp [hh])
    have hs : '\n' ∉ s := fun hh => h (List.mem_cons_of_mem _ hh)
    simp [splitNl, hc, ih hs]

theorem splitNl_append_newline {l : Str} (h : '\n' ∉ l) (s : Str) :
    splitNl (l ++ '\n' :: s) = l :: splitNl s := by
  induction l with
  | nil => simp [splitNl]
  | cons c l ih =>
    have hc : ¬ c = '\n' := fun hh => h (by simp [hh])
    have hl : '\n' ∉ l := fun hh => h (List.mem_cons_of_mem _ hh)
    rw [List.cons_append]
    simp only [splitNl, hc, if_false, ih hl]

theorem splitNl_joinNl : ∀ ls : List Str, ls ≠ [] →
    (∀ l ∈ ls, '\n' ∉ l) → splitNl (joinNl ls) = ls := by
  intro ls
  induction ls with
  | nil => intro h; exact absurd rfl h
  | cons l ls ih =>
    intro _ hall
    cases ls with
    | nil =>
      simp only [joinNl]
      exact splitNl_no_newline (hall l (by simp))
    | cons l2 ls2 =>
      simp only [joinNl]
      rw [splitNl_append_newline (hall l (by simp))]
      rw [ih (by simp) (fun x hx => hall x (List.mem_cons_of_mem _ hx))]

theorem no_newline_of_mem_splitNl {s : Str} :
    ∀ l ∈ splitNl s, '\n' ∉ l := by
  induction s with
  | nil =>
    intro l hl
    simp only [splitNl, List.mem_singleton] at hl
    simp [hl]
  | cons c s ih =>
    intro l hl
    by_cases hc : c = '\n'
    · simp only [splitNl, hc, if_pos rfl] at hl
      rcases List.mem_cons.mp hl with h | h
      · simp [h]
      · exact ih l h
    · cases hs : splitNl s with
      | nil => exact absurd hs (splitNl_ne_nil s)
      | cons r rs =>
        simp only [splitNl, hc, if_false, hs] at hl
        rcases List.mem_cons.mp hl with h | h
        · subst h
          intro hm
          rcases List.mem_cons.mp hm with h | h
          · exact hc h.symm
          · exact ih r (by rw [hs]; simp) h
        · exact ih l (by rw [hs]; exact List.mem_cons_of_mem _ h)

/-! ### Lemmas about the object model -/

theorem objGet_objSet_self (m : EnvMapping) (k v : Str) :
    objGet (objSet m k v) k = some v := by
  induction m with
  | nil => simp [objSet, objGet]
  | cons p m ih =>
    by_cases h : p.1 = k
    · simp [objSet, objGet, h]
    · simp [objSet, objGet, h, ih]

theorem objGet_objSet_ne {k k' : Str} (h : k' ≠ k) (m : EnvMapping) (v : Str) :
    objGet (objSet m k v) k' = objGet m k' := by
  have hne : ¬ k = k' := fun hh => h hh.symm
  induction m with
  | nil => simp [objSet, objGet, hne]
  | cons p m ih =>
    by_cases hp : p.1 = k
    · subst hp
      simp [objSet, objGet, hne]
    · simp [objSet, objGet, hp, ih]

theorem objSet_eq_self {m : EnvMapping} {k v : Str}
    (h : objGet m k = some v) : objSet m k v = m := by
  induction m with
  | nil => simp [objGet] at h
  | cons p m ih =>
    by_cases hp : p.1 = k
    · subst hp
      simp only [objGet, if_true, eq_self_iff_true, Option.some.injEq] at h
      subst h
      simp [objSet]
    · simp only [objGet, hp, if_false] at h
      simp [objSet, hp, ih h]

theorem mem_objSet {p : Str × Str} {m : EnvMapping} {k v : Str}
    (h : p ∈ objSet m k v) : p = (k, v) ∨ p ∈ m := by
  induction m with
  | nil => simp [objSet] at h; simp [h]
  | cons q m ih =>
    by_cases hq : q.1 = k
    · simp only [objSet, hq, if_pos rfl] at h
      rcases List.mem_cons.mp h with h | h
      · exact Or.inl h
      · exact Or.inr (List.mem_cons_of_mem _ h)
    · simp only [objSet, hq, if_false] at h
      rcases List.mem_cons.mp h with h | h
      · exact Or.inr (by simp [h])
      · rcases ih h with h | h
        · exact Or.inl h
        · exact Or.inr (List.mem_cons_of_mem _ h)

theorem objKeys_objSet (m : EnvMapping) (k v : Str) :
    objKeys (objSet m k v) =
      if objHas m k then objKeys m else objKeys m ++ [k] := by
  induction m with
  | nil => simp [objSet, objKeys, objHas, objGet]
  | cons p m ih =>
    by_cases hp : p.1 = k
    · simp [objSet, objKeys, objHas, objGet, hp]
    · simp only [objSet, hp, if_false, objKeys, List.map_cons]
      rw [show objKeys (objSet m k v) = (objSet m k v).map Prod.fst from rfl] at ih
      rw [ih]
      simp only [objHas, objGet, hp, if_false]
      by_cases hh : (objGet m k).isSome <;> simp [objHas, hh, objKeys]

theorem objHas_iff_mem_keys {m : EnvMapping} {k : Str} :
    objHas m k = true ↔ k ∈ objKeys m := by
  induction m with
  | nil => simp [objHas, objGet, objKeys]
  | cons p m ih =>
    by_cases hp : p.1 = k
    · simp [objHas, objGet, objKeys, hp]
    · simp only [objHas, objGet, hp, if_false, objKeys, List.map_cons,
        List.mem_cons]
      rw [show (objGet m k).isSome = objHas m k from rfl]
      constructor
      · intro h
        exact Or.inr (ih.mp h)
      · intro h
        rcases h with h | h
        · exact absurd h.symm hp
        · exact ih.mpr h

theorem objGet_eq_some_of_has {m : EnvMapping} {k : Str}
    (h : objHas m k = true) : objGet m k = some (objGetD m k) := by
  unfold objHas at h
  cases hg : objGet m k with
  | none => rw [hg] at h; simp at h
  | some v => simp [objGetD, hg]

theorem objGet_append (m1 m2 : EnvMapping) (k : Str) :
    objGet (m1 ++ m2) k =
      match objGet m1 k with
      | some v => some v
      | none => objGet m2 k := by
  induction m1 with
  | nil => simp [objGet]
  | cons p m ih =>
    by_cases hp : p.1 = k
    · simp [objGet, hp]
    · simp [objGet, hp, ih]

theorem objSet_fresh {m : EnvMapping} {k : Str} (h : objGet m k = none)
    (v : Str) : objSet m k v = m ++ [(k, v)] := by
  induction m with
  | nil => simp [objSet]
  | cons p m ih =>
    by_cases hp : p.1 = k
    · simp [objGet, hp] at h
    · simp only [objGet, hp, if_false] at h
      simp [objSet, hp, ih h]

/-! ### Lemmas about the merge folds -/

theorem setAll_notMem {k : Str} {ks : List Str} (h : k ∉ ks)
    (sd : EnvMapping) : ∀ acc, objGet (setAll sd ks acc) k = objGet acc k := by
  induction ks with
  | nil => intro acc; rfl
  | cons a ks ih =>
    intro acc
    have ha : k ≠ a := fun hh => h (by simp [hh])
    have hks : k ∉ ks := fun hh => h (List.mem_cons_of_mem _ hh)
    show objGet (setAll sd ks (objSet acc a (objGetD sd a))) k = objGet acc k
    rw [ih hks, objGet_objSet_ne ha]

theorem setAll_mem {k : Str} {ks : List Str} (h : k ∈ ks) (sd : EnvMapping) :
    ∀ acc, objGet (setAll sd ks acc) k = some (objGetD sd k) := by
  induction ks with
  | nil => simp at h
  | cons a ks ih =>
    intro acc
    by_cases hks : k ∈ ks
    · exact ih hks _
    · have ha : k = a := by
        rcases List.mem_cons.mp h with h | h
        · exact h
        · exact absurd h hks
      subst ha
      show objGet (setAll sd ks (objSet acc k (objGetD sd k))) k = _
      rw [setAll_notMem hks, objGet_objSet_self]

theorem setAll_eq_self {sd : EnvMapping} {ks : List Str} :
    ∀ acc, (∀ k ∈ ks, objGet acc k = some (objGetD sd k)) →
      setAll sd ks acc = acc := by
  induction ks with
  | nil => intro acc _; rfl
  | cons a ks ih =>
    intro acc h
    show setAll sd ks (objSet acc a (objGetD sd a)) = acc
    rw [objSet_eq_self (h a (by simp))]
    exact ih acc (fun k hk => h k (List.mem_cons_of_mem _ hk))

theorem setSome_notMem {k : Str} {ks : List Str} (h : k ∉ ks)
    (sd : EnvMapping) (ans : Str → Option Bool) :
    ∀ acc, objGet (setSome sd ans ks acc) k = objGet acc k := by
  induction ks with
  | nil => intro acc; rfl
  | cons a ks ih =>
    intro acc
    have ha : k ≠ a := fun hh => h (by simp [hh])
    have hks : k ∉ ks := fun hh => h (List.mem_cons_of_mem _ hh)
    show objGet (setSome sd ans ks
      (if ans a = some true then objSet acc a (objGetD sd a) else acc)) k = _
    rw [ih hks]
    by_cases hans : ans a = some true
    · rw [if_pos hans, objGet_objSet_ne ha]
    · rw [if_neg hans]

theorem setSome_mem {k : Str} {ks : List Str} (h : k ∈ ks) (sd : EnvMapping)
    (ans : Str → Option Bool) :
    ∀ acc, objGet (setSome sd ans ks acc) k =
      if ans k = some true then some (objGetD sd k) else objGet acc k := by
  induction ks with
  | nil => simp at h
  | cons a ks ih =>
    intro acc
    rw [show setSome sd ans (a :: ks) acc = setSome sd ans ks
      (if ans a = some true then objSet acc a (objGetD sd a) else acc) from rfl]
    by_cases hks : k ∈ ks
    · rw [ih hks]
      by_cases hans : ans k = some true
      · rw [if_pos hans, if_pos hans]
      · rw [if_neg hans, if_neg hans]
        show objGet (if ans a = some true then objSet acc a (objGetD sd a)
          else acc) k = objGet acc k
        by_cases ha : a = k
        · subst ha
          rw [if_neg hans]
        · by_cases hansa : ans a = some true
          · rw [if_pos hansa, objGet_objSet_ne (fun hh => ha hh.symm)]
          · rw [if_neg hansa]
    · have ha : k = a := by
        rcases List.mem_cons.mp h with h | h
        · exact h
        · exact absurd h hks
      subst ha
      show objGet (setSome sd ans ks
        (if ans k = some true then objSet acc k (objGetD sd k) else acc)) k = _
      rw [setSome_notMem hks]
      by_cases hans : ans k = some true
      · rw [if_pos hans, if_pos hans, objGet_objSet_self]
      · rw [if_neg hans, if_neg hans]

theorem perKeyLoop_none {ks : List Str} {choose : Str → Option Bool}
    (h : ∃ k ∈ ks, choose k = none) (sd : EnvMapping) :
    ∀ acc, perKeyLoop sd choose ks acc = none := by
  induction ks with
  | nil => simp at h
  | cons a ks ih =>
    intro acc
    obtain ⟨k, hk, hck⟩ := h
    by_cases ha : choose a = none
    · simp [perKeyLoop, ha]
    · cases hca : choose a with
      | none => exact absurd hca ha
      | some b =>
        have hk2 : k ∈ ks := by
          rcases List.mem_cons.mp hk with h | h
          · subst h; exact absurd hca (by simp [hck])
          · exact h
        simp only [perKeyLoop, hca]
        exact ih ⟨k, hk2, hck⟩ _

theorem perKeyLoop_some_frame {k : Str} {ks : List Str}
    {choose : Str → Option Bool} {sd : EnvMapping} (hk : k ∉ ks) :
    ∀ acc res, perKeyLoop sd choose ks acc = some res →
      objGet res k = objGet acc k := by
  induction ks with
  | nil =>
    intro acc res h
    simp only [perKeyLoop, Option.some.injEq] at h
    rw [← h]
  | cons a ks ih =>
    intro acc res h
    have ha : k ≠ a := fun hh => hk (by simp [hh])
    have hks : k ∉ ks := fun hh => hk (List.mem_cons_of_mem _ hh)
    cases hca : choose a with
    | none => simp [perKeyLoop, hca] at h
    | some b =>
      simp only [perKeyLoop, hca] at h
      rw [ih hks _ _ h]
      cases b
      · simp
      · simp [objGet_objSet_ne ha]

theorem perKeyLoop_some_mem {k : Str} {ks : List Str}
    {choose : Str → Option Bool} {sd : EnvMapping} (hk : k ∈ ks) :
    ∀ acc res, perKeyLoop sd choose ks acc = some res →
      objGet res k =
        if choose k = some true then some (objGetD sd k) else objGet acc k := by
  induction ks with
  | nil => simp at hk
  | cons a ks ih =>
    intro acc res h
    cases hca : choose a with
    | none => simp [perKeyLoop, hca] at h
    | some b =>
      simp only [perKeyLoop, hca] at h
      by_cases hks : k ∈ ks
      · rw [ih hks _ _ h]
        by_cases hck : choose k = some true
        · rw [if_pos hck, if_pos hck]
        · rw [if_neg hck, if_neg hck]
          by_cases ha : a = k
          · subst ha
            rw [hca] at hck
            have hb : b = false := by
              cases b
              · rfl
              · exact absurd rfl hck
            subst hb
            simp
          · cases b
            · simp
            · simp [objGet_objSet_ne (fun hh => ha hh.symm)]
      · have ha : k = a := by
          rcases List.mem_cons.mp hk with h | h
          · exact h
          · exact absurd h hks
        subst ha
        rw [perKeyLoop_some_frame hks _ _ h, hca]
        cases b
        · simp
        · simp [objGet_objSet_self]

/-! ### Helpers about filters and conflict classification -/

theorem list_eq_nil_of_isEmpty {α : Type} {l : List α} (h : l.isEmpty = true) :
    l = [] := by
  cases l
  · rfl
  · simp [List.isEmpty] at h

theorem filter_congr_on {α : Type} {p q : α → Bool} :
    ∀ {l : List α}, (∀ x ∈ l, p x = q x) → l.filter p = l.filter q := by
  intro l
  induction l with
  | nil => intro _; rfl
  | cons a l ih =>
    intro h
    simp only [List.filter_cons]
    rw [h a (by simp), ih (fun x hx => h x (List.mem_cons_of_mem _ hx))]

theorem filter_all_true {α : Type} {p : α → Bool} :
    ∀ {l : List α}, (∀ x ∈ l, p x = true) → l.filter p = l := by
  intro l
  induction l with
  | nil => intro _; rfl
  | cons a l ih =>
    intro h
    simp only [List.filter_cons, h a (by simp), if_pos]
    rw [ih (fun x hx => h x (List.mem_cons_of_mem _ hx))]

theorem filter_all_false {α : Type} {p : α → Bool} :
    ∀ {l : List α}, (∀ x ∈ l, p x = false) → l.filter p = [] := by
  intro l
  induction l with
  | nil => intro _; rfl
  | cons a l ih =>
    intro h
    simp only [List.filter_cons, h a (by simp)]
    exact ih (fun x hx => h x (List.mem_cons_of_mem _ hx))

theorem mem_conflictsOf {ex sd : EnvMapping} {k : Str} :
    k ∈ conflictsOf ex sd ↔ k ∈ objKeys sd ∧ objHas ex k = true := by
  simp [conflictsOf, List.mem_filter]

theorem mem_newKeysOf {ex sd : EnvMapping} {k : Str} :
    k ∈ newKeysOf ex sd ↔ k ∈ objKeys sd ∧ objHas ex k = false := by
  simp [newKeysOf, List.mem_filter]

theorem not_mem_keys_of_not_has {m : EnvMapping} {k : Str}
    (h : objHas m k = false) : k ∉ objKeys m := by
  intro hm
  rw [objHas_iff_mem_keys.mpr hm] at h
  exact Bool.noConfusion h

theorem not_mem_newKeysOf_of_has {ex sd : EnvMapping} {k : Str}
    (h : objHas ex k = true) : k ∉ newKeysOf ex sd := by
  intro hm
  rw [(mem_newKeysOf.mp hm).2] at h
  exact Bool.noConfusion h

theorem not_mem_conflictsOf_of_not_has {ex sd : EnvMapping} {k : Str}
    (h : objHas ex k = false) : k ∉ conflictsOf ex sd := by
  intro hm
  rw [(mem_conflictsOf.mp hm).2] at h
  exact Bool.noConfusion h

/-! ### Shape lemmas for the two export functions -/

theorem mkExportResult_content (ex sd fc1 : EnvMapping) :
    (mkExportResult ex sd fc1).content = setAll sd (newKeysOf ex sd) fc1 := rfl

theorem mkExportResult_added (ex sd fc1 : EnvMapping) :
    (mkExportResult ex sd fc1).added = (newKeysOf ex sd).length := rfl

theorem mkExportResult_updated (ex sd fc1 : EnvMapping) :
    (mkExportResult ex sd fc1).updated =
      ((conflictsOf ex sd).filter (fun k =>
        decide (objGetD (setAll sd (newKeysOf ex sd) fc1) k = objGetD sd k))).length := rfl

theorem mkWriteResult_content (ex sd fc1 : EnvMapping) :
    (mkWriteResult ex sd fc1).content = setAll sd (newKeysOf ex sd) fc1 := rfl

theorem mkWriteResult_updated (ex sd fc1 : EnvMapping) :
    (mkWriteResult ex sd fc1).updated =
      ((conflictsOf ex sd).filter (fun k =>
        decide (objGetD (setAll sd (newKeysOf ex sd) fc1) k = objGetD sd k))).length := rfl

theorem handleEnvFileExport_eq_some {ex sd : EnvMapping}
    {act : Option ConflictAction} {ans : Str → Option Bool} {res : ExportResult}
    (h : handleEnvFileExport ex sd act ans = some res) :
    ∃ fc1, stepOneHandle ex sd act ans = some fc1 ∧ res = mkExportResult ex sd fc1 := by
  unfold handleEnvFileExport at h
  cases hs : stepOneHandle ex sd act ans with
  | none => rw [hs] at h; exact absurd h (by simp)
  | some fc1 =>
    rw [hs] at h
    simp only [Option.map_some', Option.some.injEq] at h
    exact ⟨fc1, rfl, h.symm⟩

theorem writeSecretsToFile_eq_some {ex sd : EnvMapping}
    {act : Option ConflictAction} {choose : Str → Option Bool} {res : WriteResult}
    (h : writeSecretsToFile ex sd act choose = some res) :
    ∃ fc1, stepOneWrite ex sd act choose = some fc1 ∧ res = mkWriteResult ex sd fc1 := by
  unfold writeSecretsToFile at h
  cases hs : stepOneWrite ex sd act choose with
  | none => rw [hs] at h; exact absurd h (by simp)
  | some fc1 =>
    rw [hs] at h
    simp only [Option.map_some', Option.some.injEq] at h
    exact ⟨fc1, rfl, h.symm⟩

theorem stepOneHandle_frame {ex sd : EnvMapping} {act : Option ConflictAction}
    {ans : Str → Option Bool} {fc1 : EnvMapping} {k : Str}
    (h : stepOneHandle ex sd act ans = some fc1) (hk : k ∉ conflictsOf ex sd) :
    objGet fc1 k = objGet ex k := by
  unfold stepOneHandle at h
  by_cases he : (conflictsOf ex sd).isEmpty
  · rw [if_pos he] at h
    simp only [Option.some.injEq] at h
    subst h
    rfl
  · rw [if_neg he] at h
    cases act with
    | none => exact absurd h (by simp)
    | some a =>
      cases a with
      | overwriteAll =>
        simp only [Option.some.injEq] at h
        subst h
        exact setAll_notMem hk sd ex
      | perKey =>
        simp only [Option.some.injEq] at h
        subst h
        exact setSome_notMem hk sd ans ex
      | skipAll =>
        simp only [Option.some.injEq] at h
        subst h
        rfl

theorem stepOneHandle_conflict {ex sd : EnvMapping} {a : ConflictAction}
    {ans : Str → Option Bool} {fc1 : EnvMapping} {k : Str}
    (h : stepOneHandle ex sd (some a) ans = some fc1)
    (hk : k ∈ conflictsOf ex sd) :
    objGet fc1 k =
      if overwrites a ans k then some (objGetD sd k) else objGet ex k := by
  unfold stepOneHandle at h
  have hne : ¬ (conflictsOf ex sd).isEmpty = true := by
    intro hh
    rw [list_eq_nil_of_isEmpty hh] at hk
    exact absurd hk (by simp)
  rw [if_neg hne] at h
  cases a with
  | overwriteAll =>
    simp only [Option.some.injEq] at h
    subst h
    rw [setAll_mem hk]
    simp [overwrites]
  | perKey =>
    simp only [Option.some.injEq] at h
    subst h
    rw [setSome_mem hk]
    by_cases hans : ans k = some true
    · rw [if_pos hans, if_pos (by simp [overwrites, hans])]
    · rw [if_neg hans, if_neg (by simp [overwrites, hans])]
  | skipAll =>
    simp only [Option.some.injEq] at h
    subst h
    rw [if_neg (by simp [overwrites])]

theorem stepOneHandle_some (ex sd : EnvMapping) (a : ConflictAction)
    (ans : Str → Option Bool) :
    (stepOneHandle ex sd (some a) ans).isSome = true := by
  unfold stepOneHandle
  by_cases he : (conflictsOf ex sd).isEmpty
  · simp [he]
  · cases a <;> simp [he]

theorem stepOneWrite_frame {ex sd : EnvMapping} {act : Option ConflictAction}
    {choose : Str → Option Bool} {fc1 : EnvMapping} {k : Str}
    (h : stepOneWrite ex sd act choose = some fc1) (hk : k ∉ conflictsOf ex sd) :
    objGet fc1 k = objGet ex k := by
  unfold stepOneWrite at h
  by_cases he : (conflictsOf ex sd).isEmpty
  · rw [if_pos he] at h
    simp only [Option.some.injEq] at h
    subst h
    rfl
  · rw [if_neg he] at h
    cases act with
    | none => exact absurd h (by simp)
    | some a =>
      cases a with
      | overwriteAll =>
        simp only [Option.some.injEq] at h
        subst h
        exact setAll_notMem hk sd ex
      | perKey =>
        exact perKeyLoop_some_frame hk _ _ h
      | skipAll =>
        simp only [Option.some.injEq] at h
        subst h
        rfl

theorem stepOneWrite_conflict {ex sd : EnvMapping} {a : ConflictAction}
    {choose : Str → Option Bool} {fc1 : EnvMapping} {k : Str}
    (h : stepOneWrite ex sd (some a) choose = some fc1)
    (hk : k ∈ conflictsOf ex sd) :
    objGet fc1 k =
      if overwrites a choose k then some (objGetD sd k) else objGet ex k := by
  unfold stepOneWrite at h
  have hne : ¬ (conflictsOf ex sd).isEmpty = true := by
    intro hh
    rw [list_eq_nil_of_isEmpty hh] at hk
    exact absurd hk (by simp)
  rw [if_neg hne] at h
  cases a with
  | overwriteAll =>
    simp only [Option.some.injEq] at h
    subst h
    rw [setAll_mem hk]
    simp [overwrites]
  | perKey =>
    rw [perKeyLoop_some_mem hk _ _ h]
    by_cases hc : choose k = some true
    · rw [if_pos hc, if_pos (by simp [overwrites, hc])]
    · rw [if_neg hc, if_neg (by simp [overwrites, hc])]
  | skipAll =>
    simp only [Option.some.injEq] at h
    subst h
    rw [if_neg (by simp [overwrites])]

/-! ### Value of the final content at each kind of key -/

theorem handle_conflict_value {ex sd : EnvMapping} {a : ConflictAction}
    {ans : Str → Option Bool} {res : ExportResult} {k : Str}
    (h : handleEnvFileExport ex sd (some a) ans = some res)
    (hk : k ∈ conflictsOf ex sd) :
    objGet res.content k =
      if overwrites a ans k then some (objGetD sd k) else objGet ex k := by
  obtain ⟨fc1, hs, hr⟩ := handleEnvFileExport_eq_some h
  subst hr
  rw [mkExportResult_content,
    setAll_notMem (not_mem_newKeysOf_of_has (mem_conflictsOf.mp hk).2),
    stepOneHandle_conflict hs hk]

theorem write_conflict_value {ex sd : EnvMapping} {a : ConflictAction}
    {choose : Str → Option Bool} {res : WriteResult} {k : Str}
    (h : writeSecretsToFile ex sd (some a) choose = some res)
    (hk : k ∈ conflictsOf ex sd) :
    objGet res.content k =
      if overwrites a choose k then some (objGetD sd k) else objGet ex k := by
  obtain ⟨fc1, hs, hr⟩ := writeSecretsToFile_eq_some h
  subst hr
  rw [mkWriteResult_content,
    setAll_notMem (not_mem_newKeysOf_of_has (mem_conflictsOf.mp hk).2),
    stepOneWrite_conflict hs hk]

theorem handle_new_value {ex sd : EnvMapping} {act : Option ConflictAction}
    {ans : Str → Option Bool} {res : ExportResult} {k : Str}
    (h : handleEnvFileExport ex sd act ans = some res)
    (hk : k ∈ newKeysOf ex sd) :
    objGet res.content k = some (objGetD sd k) := by
  obtain ⟨fc1, _, hr⟩ := handleEnvFileExport_eq_some h
  subst hr
  rw [mkExportResult_content, setAll_mem hk]

theorem handle_frame_value {ex sd : EnvMapping} {act : Option ConflictAction}
    {ans : Str → Option Bool} {res : ExportResult} {k : Str}
    (h : handleEnvFileExport ex sd act ans = some res)
    (hc : k ∉ conflictsOf ex sd) (hn : k ∉ newKeysOf ex sd) :
    objGet res.content k = objGet ex k := by
  obtain ⟨fc1, hs, hr⟩ := handleEnvFileExport_eq_some h
  subst hr
  rw [mkExportResult_content, setAll_notMem hn, stepOneHandle_frame hs hc]

theorem write_frame_value {ex sd : EnvMapping} {act : Option ConflictAction}
    {choose : Str → Option Bool} {res : WriteResult} {k : Str}
    (h : writeSecretsToFile ex sd act choose = some res)
    (hc : k ∉ conflictsOf ex sd) (hn : k ∉ newKeysOf ex sd) :
    objGet res.content k = objGet ex k := by
  obtain ⟨fc1, hs, hr⟩ := writeSecretsToFile_eq_some h
  subst hr
  rw [mkWriteResult_content, setAll_notMem hn, stepOneWrite_frame hs hc]

theorem filter_updated_eq {ex sd f : EnvMapping} {ov : Str → Bool}
    (hf : ∀ k ∈ conflictsOf ex sd,
      objGet f k = if ov k then some (objGetD sd k) else objGet ex k) :
    (conflictsOf ex sd).filter (fun k => decide (objGetD f k = objGetD sd k)) =
      (conflictsOf ex sd).filter
        (fun k => ov k || decide (objGetD ex k = objGetD sd k)) := by
  apply filter_congr_on
  intro k hk
  have h1 := hf k hk
  cases ho : ov k with
  | true =>
    rw [ho, if_pos rfl] at h1
    have h2 : objGetD f k = objGetD sd k := by
      unfold objGetD
      rw [h1]
      rfl
    simp [h2]
  | false =>
    rw [ho] at h1
    simp only [Bool.false_eq_true, if_false] at h1
    have h2 : objGetD f k = objGetD ex k := by
      unfold objGetD
      rw [h1]
    simp [h2]

/-! ### Concrete sample data used by witnesses and counterexamples -/

/-- The key A. -/
def kA : Str := "A".toList

/-- The key B. -/
def kB : Str := "B".toList

/-- An existing file mapping with the single entry A=1. -/
def exA1 : EnvMapping := [(kA, "1".toList)]

/-- Incoming secret data with the single entry A=2. -/
def sdA2 : EnvMapping := [(kA, "2".toList)]

/-- Incoming secret data with the single entry B=2. -/
def sdB2 : EnvMapping := [(kB, "2".toList)]

/-! ### Claims C1, C3, C4, C5, C6, C9 -/

/-- C1, counterexample to the claim as stated: in `handleEnvFileExport`, with
the per-key policy in effect and the per-key prompt dismissed (cancelled) at
the only conflicting key, the reconciliation does NOT abort: it completes and
the file write occurs (result `some`, content written unchanged at A). -/
theorem c1_claim_counterexample :
    handleEnvFileExport exA1 sdA2 (some ConflictAction.perKey) (fun _ => none) =
      some (ExportResult.mk exA1 0 0) := by decide

/-- C1, amended: in the variant `writeSecretsToFile`, a per-key cancellation at
any conflicting key aborts the whole reconciliation with no write; in
`handleEnvFileExport`, a dismissed per-key prompt is instead treated as "keep
existing" for that key and the export still completes and writes the file. -/
theorem c1_amended : ∀ (ex sd : EnvMapping) (choose ans : Str → Option Bool)
    (k : Str) (res : ExportResult),
    (∃ k2 ∈ conflictsOf ex sd, choose k2 = none) →
    handleEnvFileExport ex sd (some ConflictAction.perKey) ans = some res →
    k ∈ conflictsOf ex sd → ans k = none →
    writeSecretsToFile ex sd (some ConflictAction.perKey) choose = none ∧
      objGet res.content k = objGet ex k := by
  intro ex sd choose ans k res habort hres hk hans
  constructor
  · unfold writeSecretsToFile stepOneWrite
    obtain ⟨k2, hk2, hc2⟩ := habort
    have hne : ¬ (conflictsOf ex sd).isEmpty = true := by
      intro hh
      rw [list_eq_nil_of_isEmpty hh] at hk2
      exact absurd hk2 (by simp)
    rw [if_neg hne, perKeyLoop_none ⟨k2, hk2, hc2⟩ sd ex]
    rfl
  · have hv := handle_conflict_value hres hk
    rw [show overwrites ConflictAction.perKey ans k =
      decide (ans k = some true) from rfl, hans] at hv
    simpa using hv

/-- Witness for C1 (amended) at a concrete input. -/
theorem c1_amended_witness :
    writeSecretsToFile exA1 sdA2 (some ConflictAction.perKey) (fun _ => none) =
        none ∧
      objGet (ExportResult.mk exA1 0 0).content kA = objGet exA1 kA :=
  c1_amended exA1 sdA2 (fun _ => none) (fun _ => none) kA (ExportResult.mk exA1 0 0)
    ⟨kA, by decide, rfl⟩ (by decide) (by decide) rfl

/-- C3, counterexample to the claim as stated: reconciling existing A=1 with
incoming A=1 under Skip conflicts keeps every value unchanged (the final
content equals the existing mapping), yet the reported `updated` count is 1,
not 0: a skipped conflict whose existing value equals the incoming value is
counted as updated. -/
theorem c3_claim_counterexample :
    handleEnvFileExport exA1 exA1 (some ConflictAction.skipAll) (fun _ => none) =
      some (ExportResult.mk exA1 0 1) := by decide

/-- C3, amended: for every completed reconciliation, the reported `updated`
count equals the number of conflicting keys whose FINAL value equals the
INCOMING value, i.e. keys that were overwritten under the policy plus skipped
keys whose existing value already equals the incoming value (this holds for
both export implementations). -/
theorem c3_amended : ∀ (ex sd : EnvMapping) (a : ConflictAction)
    (ans : Str → Option Bool) (res : ExportResult) (res2 : WriteResult),
    handleEnvFileExport ex sd (some a) ans = some res →
    writeSecretsToFile ex sd (some a) ans = some res2 →
    res.updated = ((conflictsOf ex sd).filter
        (fun k => overwrites a ans k || decide (objGetD ex k = objGetD sd k))).length ∧
      res2.updated = ((conflictsOf ex sd).filter
        (fun k => overwrites a ans k || decide (objGetD ex k = objGetD sd k))).length := by
  intro ex sd a ans res res2 h1 h2
  constructor
  · obtain ⟨fc1, hs, hr⟩ := handleEnvFileExport_eq_some h1
    have hf : ∀ k ∈ conflictsOf ex sd,
        objGet (setAll sd (newKeysOf ex sd) fc1) k =
          if overwrites a ans k then some (objGetD sd k) else objGet ex k := by
      intro k hk
      rw [setAll_notMem (not_mem_newKeysOf_of_has (mem_conflictsOf.mp hk).2),
        stepOneHandle_conflict hs hk]
    subst hr
    rw [mkExportResult_updated, filter_updated_eq hf]
  · obtain ⟨fc1, hs, hr⟩ := writeSecretsToFile_eq_some h2
    have hf : ∀ k ∈ conflictsOf ex sd,
        objGet (setAll sd (newKeysOf ex sd) fc1) k =
          if overwrites a ans k then some (objGetD sd k) else objGet ex k := by
      intro k hk
      rw [setAll_notMem (not_mem_newKeysOf_of_has (mem_conflictsOf.mp hk).2),
        stepOneWrite_conflict hs hk]
    subst hr
    rw [mkWriteResult_updated, filter_updated_eq hf]

/-- Witness for C3 (amended) at a concrete input. -/
theorem c3_amended_witness :
    (ExportResult.mk exA1 0 1).updated = ((conflictsOf exA1 exA1).filter
        (fun k => overwrites ConflictAction.skipAll (fun _ => none) k ||
          decide (objGetD exA1 k = objGetD exA1 k))).length ∧
      (WriteResult.mk exA1 0 1 1).updated = ((conflictsOf exA1 exA1).filter
        (fun k => overwrites ConflictAction.skipAll (fun _ => none) k ||
          decide (objGetD exA1 k = objGetD exA1 k))).length :=
  c3_amended exA1 exA1 ConflictAction.skipAll (fun _ => none)
    (ExportResult.mk exA1 0 1) (WriteResult.mk exA1 0 1 1) (by decide) (by decide)

/-- C4: for every completed export reconciliation (either implementation, any
policy), a key present in the existing mapping but absent from the incoming
secret set appears in the result with its existing value unchanged. -/
theorem c4_preserves_unrelated_keys : ∀ (ex sd : EnvMapping)
    (act : Option ConflictAction) (ans : Str → Option Bool) (k : Str)
    (res : ExportResult) (res2 : WriteResult),
    objHas ex k = true → objHas sd k = false →
    handleEnvFileExport ex sd act ans = some res →
    writeSecretsToFile ex sd act ans = some res2 →
    objGet res.content k = objGet ex k ∧ objHas res.content k = true ∧
      objGet res2.content k = objGet ex k ∧ objHas res2.content k = true := by
  intro ex sd act ans k res res2 hex hsd h1 h2
  have hkc : k ∉ conflictsOf ex sd :=
    fun hm => not_mem_keys_of_not_has hsd (mem_conflictsOf.mp hm).1
  have hkn : k ∉ newKeysOf ex sd :=
    fun hm => not_mem_keys_of_not_has hsd (mem_newKeysOf.mp hm).1
  have hv1 := handle_frame_value h1 hkc hkn
  have hv2 := write_frame_value h2 hkc hkn
  refine ⟨hv1, ?_, hv2, ?_⟩
  · show (objGet res.content k).isSome = true
    rw [hv1]
    exact hex
  · show (objGet res2.content k).isSome = true
    rw [hv2]
    exact hex

/-- Witness for C4 at a concrete input. -/
theorem c4_preserves_unrelated_keys_witness :
    objGet (ExportResult.mk [(kA, "1".toList), (kB, "2".toList)] 1 0).content kA =
        objGet exA1 kA ∧
      objHas (ExportResult.mk [(kA, "1".toList), (kB, "2".toList)] 1 0).content kA =
        true ∧
      objGet (WriteResult.mk [(kA, "1".toList), (kB, "2".toList)] 1 0 2).content kA =
        objGet exA1 kA ∧
      objHas (WriteResult.mk [(kA, "1".toList), (kB, "2".toList)] 1 0 2).content kA =
        true :=
  c4_preserves_unrelated_keys exA1 sdB2 (some ConflictAction.skipAll)
    (fun _ => none) kA (ExportResult.mk [(kA, "1".toList), (kB, "2".toList)] 1 0)
    (WriteResult.mk [(kA, "1".toList), (kB, "2".toList)] 1 0 2)
    (by decide) (by decide) (by decide) (by decide)

/-- C5: for every completed export, a key of the incoming set absent from the
existing mapping is included in the result with the incoming value, and the
reported `added` count is the number of such new keys; concretely, reconciling
existing A=1 with incoming B=2 yields the merged mapping with `added = 1` and
`updated = 0` under any policy answer, including a dismissed bulk prompt. -/
theorem c5_new_keys_added : ∀ (ex sd : EnvMapping) (act act2 : Option ConflictAction)
    (ans ans2 : Str → Option Bool) (k : Str) (res : ExportResult),
    handleEnvFileExport ex sd act ans = some res →
    objHas sd k = true → objHas ex k = false →
    objGet res.content k = objGet sd k ∧
      res.added = (newKeysOf ex sd).length ∧
      handleEnvFileExport exA1 sdB2 act2 ans2 =
        some (ExportResult.mk [(kA, "1".toList), (kB, "2".toList)] 1 0) := by
  intro ex sd act act2 ans ans2 k res h hsd hex
  have hkn : k ∈ newKeysOf ex sd :=
    mem_newKeysOf.mpr ⟨objHas_iff_mem_keys.mp hsd, hex⟩
  refine ⟨?_, ?_, rfl⟩
  · rw [handle_new_value h hkn, objGet_eq_some_of_has hsd]
  · obtain ⟨fc1, _, hr⟩ := handleEnvFileExport_eq_some h
    subst hr
    rfl

/-- Witness for C5 at a concrete input. -/
theorem c5_new_keys_added_witness :
    objGet (ExportResult.mk [(kA, "1".toList), (kB, "2".toList)] 1 0).content kB =
        objGet sdB2 kB ∧
      (ExportResult.mk [(kA, "1".toList), (kB, "2".toList)] 1 0).added =
        (newKeysOf exA1 sdB2).length ∧
      handleEnvFileExport exA1 sdB2 none (fun _ => none) =
        some (ExportResult.mk [(kA, "1".toList), (kB, "2".toList)] 1 0) :=
  c5_new_keys_added exA1 sdB2 (some ConflictAction.overwriteAll) none
    (fun _ => none) (fun _ => none) kB
    (ExportResult.mk [(kA, "1".toList), (kB, "2".toList)] 1 0)
    (by decide) (by decide) (by decide)

/-- C6: for every completed export (either implementation), a conflicting key
takes the incoming value under Overwrite all conflicts and keeps the existing
value under Skip conflicts; concretely, existing A=1 with incoming A=2 yields
A=2 with `updated = 1` under overwrite-all and A=1 with `updated = 0` under
skip-all. -/
theorem c6_policy_values : ∀ (ex sd : EnvMapping)
    (ans choose ans2 ans3 : Str → Option Bool) (k : Str)
    (r1 r2 : ExportResult) (r3 r4 : WriteResult),
    objHas ex k = true → objHas sd k = true →
    handleEnvFileExport ex sd (some ConflictAction.overwriteAll) ans = some r1 →
    handleEnvFileExport ex sd (some ConflictAction.skipAll) ans = some r2 →
    writeSecretsToFile ex sd (some ConflictAction.overwriteAll) choose = some r3 →
    writeSecretsToFile ex sd (some ConflictAction.skipAll) choose = some r4 →
    objGet r1.content k = objGet sd k ∧ objGet r2.content k = objGet ex k ∧
      objGet r3.content k = objGet sd k ∧ objGet r4.content k = objGet ex k ∧
      handleEnvFileExport exA1 sdA2 (some ConflictAction.overwriteAll) ans2 =
        some (ExportResult.mk [(kA, "2".toList)] 0 1) ∧
      handleEnvFileExport exA1 sdA2 (some ConflictAction.skipAll) ans3 =
        some (ExportResult.mk exA1 0 0) := by
  intro ex sd ans choose ans2 ans3 k r1 r2 r3 r4 hex hsd h1 h2 h3 h4
  have hk : k ∈ conflictsOf ex sd :=
    mem_conflictsOf.mpr ⟨objHas_iff_mem_keys.mp hsd, hex⟩
  have v1 := handle_conflict_value h1 hk
  have v2 := handle_conflict_value h2 hk
  have v3 := write_conflict_value h3 hk
  have v4 := write_conflict_value h4 hk
  simp only [overwrites, if_true] at v1 v3
  simp only [overwrites, Bool.false_eq_true, if_false] at v2 v4
  rw [objGet_eq_some_of_has hsd]
  exact ⟨v1, v2, v3, v4, rfl, rfl⟩

/-- Witness for C6 at a concrete input. -/
theorem c6_policy_values_witness :
    objGet (ExportResult.mk [(kA, "2".toList)] 0 1).content kA = objGet sdA2 kA ∧
      objGet (ExportResult.mk exA1 0 0).content kA = objGet exA1 kA ∧
      objGet (WriteResult.mk [(kA, "2".toList)] 0 1 1).content kA = objGet sdA2 kA ∧
      objGet (WriteResult.mk exA1 0 0 1).content kA = objGet exA1 kA ∧
      handleEnvFileExport exA1 sdA2 (some ConflictAction.overwriteAll)
          (fun _ => none) = some (ExportResult.mk [(kA, "2".toList)] 0 1) ∧
      handleEnvFileExport exA1 sdA2 (some ConflictAction.skipAll)
          (fun _ => none) = some (ExportResult.mk exA1 0 0) :=
  c6_policy_values exA1 sdA2 (fun _ => none) (fun _ => none) (fun _ => none)
    (fun _ => none) kA (ExportResult.mk [(kA, "2".toList)] 0 1)
    (ExportResult.mk exA1 0 0) (WriteResult.mk [(kA, "2".toList)] 0 1 1)
    (WriteResult.mk exA1 0 0 1) (by decide) (by decide) (by decide) (by decide)
    (by decide) (by decide)

/-- C9: the merge is idempotent under Overwrite all conflicts: reconciling the
result of a first overwrite-all reconciliation with the same incoming set
again yields the same final mapping. -/
theorem c9_overwriteAll_idempotent : ∀ (ex sd : EnvMapping)
    (ans ans2 : Str → Option Bool) (res res2 : ExportResult),
    handleEnvFileExport ex sd (some ConflictAction.overwriteAll) ans = some res →
    handleEnvFileExport res.content sd (some ConflictAction.overwriteAll) ans2 =
      some res2 →
    res2.content = res.content := by
  intro ex sd ans ans2 res res2 h1 h2
  have hkey : ∀ k ∈ objKeys sd, objGet res.content k = some (objGetD sd k) := by
    intro k hks
    by_cases hex : objHas ex k
    · have hk : k ∈ conflictsOf ex sd := mem_conflictsOf.mpr ⟨hks, hex⟩
      have hv := handle_conflict_value h1 hk
      simpa [overwrites] using hv
    · have hex2 : objHas ex k = false := by
        cases hh : objHas ex k
        · rfl
        · exact absurd hh hex
      exact handle_new_value h1 (mem_newKeysOf.mpr ⟨hks, hex2⟩)
  have hconf2 : conflictsOf res.content sd = objKeys sd := by
    apply filter_all_true
    intro k hk
    show (objGet res.content k).isSome = true
    rw [hkey k hk]
    rfl
  have hnew2 : newKeysOf res.content sd = [] := by
    apply filter_all_false
    intro k hk
    show (! objHas res.content k) = false
    rw [show objHas res.content k = (objGet res.content k).isSome from rfl,
      hkey k hk]
    rfl
  obtain ⟨fc1, hs2, hr2⟩ := handleEnvFileExport_eq_some h2
  subst hr2
  rw [mkExportResult_content, hnew2]
  rw [show setAll sd [] fc1 = fc1 from rfl]
  unfold stepOneHandle at hs2
  rw [hconf2] at hs2
  by_cases he : (objKeys sd).isEmpty
  · rw [if_pos he] at hs2
    simp only [Option.some.injEq] at hs2
    exact hs2.symm
  · rw [if_neg he] at hs2
    simp only [Option.some.injEq] at hs2
    rw [← hs2]
    exact setAll_eq_self res.content hkey

/-- Witness for C9 at a concrete input. -/
theorem c9_overwriteAll_idempotent_witness :
    (ExportResult.mk [(kA, "2".toList)] 0 1).content =
      (ExportResult.mk [(kA, "2".toList)] 0 1).content :=
  c9_overwriteAll_idempotent exA1 sdA2 (fun _ => none) (fun _ => none)
    (ExportResult.mk [(kA, "2".toList)] 0 1)
    (ExportResult.mk [(kA, "2".toList)] 0 1) (by decide) (by decide)

/-! ### Claim C2: import direction -/

theorem importConflictLoop_deleted {choice : Str → ImportChoice} :
    ∀ (ks del imp : List Str) (ab : Bool) (del2 imp2 : List Str),
      importConflictLoop choice ks del imp = (ab, del2, imp2) →
      ∀ k ∈ del2, k ∈ del ∨ (k ∈ ks ∧ choice k = ImportChoice.overwrite) := by
  intro ks
  induction ks with
  | nil =>
    intro del imp ab del2 imp2 h k hk
    simp only [importConflictLoop, Prod.mk.injEq] at h
    rw [← h.2.1] at hk
    exact Or.inl hk
  | cons a ks ih =>
    intro del imp ab del2 imp2 h k hk
    cases hca : choice a with
    | cancel =>
      simp only [importConflictLoop, hca, Prod.mk.injEq] at h
      rw [← h.2.1] at hk
      exact Or.inl hk
    | skip =>
      simp only [importConflictLoop, hca] at h
      rcases ih del imp ab del2 imp2 h k hk with h2 | ⟨hm, ho⟩
      · exact Or.inl h2
      · exact Or.inr ⟨List.mem_cons_of_mem _ hm, ho⟩
    | overwrite =>
      simp only [importConflictLoop, hca] at h
      rcases ih (del ++ [a]) (imp ++ [a]) ab del2 imp2 h k hk with h2 | ⟨hm, ho⟩
      · rcases List.mem_append.mp h2 with h3 | h3
        · exact Or.inl h3
        · have hka : k = a := by simpa using h3
          subst hka
          exact Or.inr ⟨by simp, hca⟩
      · exact Or.inr ⟨List.mem_cons_of_mem _ hm, ho⟩

/-- C2, counterexample to the claim as stated: importing A=2, B=3 into a
project whose existing secrets are A and B, answering Overwrite for the A
conflict and then cancelling at the B conflict, aborts the import with the
existing secret A already deleted — cancellation is not side-effect free. -/
theorem c2_claim_counterexample :
    importSecretsFromEnv [(kA, "2".toList), (kB, "3".toList)] [kA, kB]
      (fun k => if k = kA then ImportChoice.overwrite else ImportChoice.cancel) =
      ImportOutcome.mk true [kA] [] := by decide

/-- C2, amended: when the user cancels during per-key conflict resolution, no
secret is created, but the existing secrets of conflicts already answered
Overwrite before the cancellation point have already been deleted and are not
restored: every deleted key is a conflicting key the resolver answered
Overwrite for. -/
theorem c2_amended : ∀ (envData : EnvMapping) (existingKeys : List Str)
    (choice : Str → ImportChoice) (k : Str),
    (importSecretsFromEnv envData existingKeys choice).aborted = true →
    k ∈ (importSecretsFromEnv envData existingKeys choice).deleted →
    (importSecretsFromEnv envData existingKeys choice).created = [] ∧
      choice k = ImportChoice.overwrite ∧ existingKeys.contains k = true := by
  intro envData existingKeys choice k h hk
  revert h hk
  unfold importSecretsFromEnv
  cases hres : importConflictLoop choice
      ((objKeys envData).filter (fun k => existingKeys.contains k)) []
      ((objKeys envData).filter (fun k => ! existingKeys.contains k)) with
  | mk ab rest =>
    obtain ⟨del, imp⟩ := rest
    intro h hk
    cases ab
    · simp at h
    · refine ⟨rfl, ?_⟩
      have hk2 : k ∈ del := hk
      rcases importConflictLoop_deleted _ _ _ _ _ _ hres k hk2 with h2 | ⟨hm, ho⟩
      · exact absurd h2 (by simp)
      · exact ⟨ho, (List.mem_filter.mp hm).2⟩

/-- Witness for C2 (amended) at a concrete input. -/
theorem c2_amended_witness :
    (importSecretsFromEnv [(kA, "2".toList), (kB, "3".toList)] [kA, kB]
        (fun k => if k = kA then ImportChoice.overwrite else ImportChoice.cancel)).created =
        [] ∧
      (fun k => if k = kA then ImportChoice.overwrite else ImportChoice.cancel) kA =
        ImportChoice.overwrite ∧
      List.contains [kA, kB] kA = true :=
  c2_amended [(kA, "2".toList), (kB, "3".toList)] [kA, kB]
    (fun k => if k = kA then ImportChoice.overwrite else ImportChoice.cancel) kA
    (by decide) (by decide)

/-! ### Claim C8: the parser is total and lenient -/

theorem parseLine_malformed {l : Str} (h : malformedLine l = true)
    (acc : EnvMapping) : parseLine acc l = acc := by
  unfold malformedLine at h
  unfold parseLine
  by_cases h1 : trim l = []
  · rw [if_pos h1]
  · rw [if_neg h1]
    by_cases h2 : (trim l).head? = some '#'
    · rw [if_pos h2]
    · rw [if_neg h2]
      cases hsp : splitAtFirstEq (trim l) with
      | none => simp [hsp]
      | some p =>
        obtain ⟨b, a⟩ := p
        rw [hsp] at h
        simp only [h1, h2, decide_False, Bool.false_or, decide_eq_true_eq] at h
        simp [hsp, h]

/-- C8: the parser never fails and silently drops malformed lines: removing a
line that is empty after trimming, starts with a comment mark, has no `=`, or
has `=` at position 0 does not change the parse result of the surrounding
lines, and parsing the single line MALFORMED_LINE_NO_EQUALS yields the empty
mapping (parsing is a total function by construction, so no input can make it
fail). -/
theorem c8_parse_total_lenient : ∀ (ls1 ls2 : List Str) (l : Str),
    malformedLine l = true →
    parseLines [] (ls1 ++ l :: ls2) = parseLines [] (ls1 ++ ls2) ∧
      parseEnvFile ("MALFORMED_LINE_NO_EQUALS".toList) = [] := by
  intro ls1 ls2 l h
  constructor
  · unfold parseLines
    rw [List.foldl_append, List.foldl_append, List.foldl_cons,
      parseLine_malformed h]
  · decide

/-- Witness for C8 at a concrete input. -/
theorem c8_parse_total_lenient_witness :
    malformedLine ("GARBAGE LINE".toList) = true ∧
      (parseLines [] (["A=1".toList] ++ "GARBAGE LINE".toList :: ["B=2".toList]) =
          parseLines [] (["A=1".toList] ++ ["B=2".toList]) ∧
        parseEnvFile ("MALFORMED_LINE_NO_EQUALS".toList) = []) :=
  ⟨by decide, c8_parse_total_lenient ["A=1".toList] ["B=2".toList]
    ("GARBAGE LINE".toList) (by decide)⟩

/-! ### Well-formedness of parser output (claims C7 and C10) -/

theorem good_trim_key {l b a : Str} (hnl : '\n' ∉ l)
    (hsp : splitAtFirstEq (trim l) = some (b, a)) (hb : b ≠ [])
    (hh : (trim l).head? ≠ some '#') :
    goodKey (trim b) ∧ goodVal (trim a) := by
  obtain ⟨ht, hnb⟩ := splitAtFirstEq_eq_some hsp
  have hmem_b : ∀ x ∈ b, x ∈ trim l := by
    intro x hx
    rw [ht]
    exact List.mem_append.mpr (Or.inl hx)
  have hmem_a : ∀ x ∈ a, x ∈ trim l := by
    intro x hx
    rw [ht]
    exact List.mem_append.mpr (Or.inr (List.mem_cons_of_mem _ hx))
  cases b with
  | nil => exact absurd rfl hb
  | cons c b' =>
    have hhead : (trim l).head? = some c := by rw [ht]; rfl
    have htl : trimLeft (trim l) = trim l := trimLeft_trim l
    have hc : jsws c = false :=
      not_ws_of_trimLeft_eq_cons
        (show trimLeft (trim l) = c :: (b' ++ '=' :: a) by rw [htl, ht]; rfl)
    have hkey : trim (c :: b') = c :: trimRight b' := by
      unfold trim
      rw [trimLeft_cons_not_ws hc, trimRight_cons_not_ws hc]
    constructor
    · refine ⟨?_, trimLeft_trim _, trimRight_trim _, ?_, ?_, ?_⟩
      · rw [hkey]
        simp
      · intro hm
        exact hnb (mem_of_mem_trim hm)
      · intro hm
        exact hnl (mem_of_mem_trim (hmem_b _ (mem_of_mem_trim hm)))
      · rw [hkey]
        intro hx
        apply hh
        rw [hhead]
        simpa using hx
    · refine ⟨trimLeft_trim _, trimRight_trim _, ?_⟩
      intro hm
      exact hnl (mem_of_mem_trim (hmem_a _ (mem_of_mem_trim hm)))

theorem goodEntries_objSet {m : EnvMapping} {k v : Str} (hm : goodEntries m)
    (hk : goodKey k) (hv : goodVal v) : goodEntries (objSet m k v) := by
  intro p hp
  rcases mem_objSet hp with h | h
  · subst h
    exact ⟨hk, hv⟩
  · exact hm p h

theorem nodup_objSet {m : EnvMapping} {k : Str} (v : Str)
    (hm : (objKeys m).Nodup) : (objKeys (objSet m k v)).Nodup := by
  rw [objKeys_objSet]
  cases hh : objHas m k with
  | true => simpa using hm
  | false =>
    simp only [Bool.false_eq_true, if_false]
    rw [List.nodup_append]
    refine ⟨hm, by simp, ?_⟩
    intro x hx hx2
    have hxk : x = k := by simpa using hx2
    subst hxk
    exact not_mem_keys_of_not_has hh hx

theorem parseLine_invariant {acc : EnvMapping} {l : Str} (hnl : '\n' ∉ l)
    (hg : goodEntries acc) (hnd : (objKeys acc).Nodup) :
    goodEntries (parseLine acc l) ∧ (objKeys (parseLine acc l)).Nodup := by
  unfold parseLine
  by_cases h1 : trim l = []
  · rw [if_pos h1]
    exact ⟨hg, hnd⟩
  · rw [if_neg h1]
    by_cases h2 : (trim l).head? = some '#'
    · rw [if_pos h2]
      exact ⟨hg, hnd⟩
    · rw [if_neg h2]
      cases hsp : splitAtFirstEq (trim l) with
      | none =>
        simp only [hsp]
        exact ⟨hg, hnd⟩
      | some p =>
        obtain ⟨b, a⟩ := p
        simp only [hsp]
        by_cases hb : b = []
        · rw [if_pos hb]
          exact ⟨hg, hnd⟩
        · rw [if_neg hb]
          obtain ⟨hk, hv⟩ := good_trim_key hnl hsp hb h2
          exact ⟨goodEntries_objSet hg hk hv, nodup_objSet _ hnd⟩

theorem parseLines_invariant : ∀ (ls : List Str) (acc : EnvMapping),
    (∀ l ∈ ls, '\n' ∉ l) → goodEntries acc → (objKeys acc).Nodup →
    goodEntries (parseLines acc ls) ∧ (objKeys (parseLines acc ls)).Nodup := by
  intro ls
  induction ls with
  | nil =>
    intro acc _ hg hnd
    exact ⟨hg, hnd⟩
  | cons l ls ih =>
    intro acc hall hg hnd
    obtain ⟨hg2, hnd2⟩ := parseLine_invariant (hall l (by simp)) hg hnd
    exact ih (parseLine acc l)
      (fun x hx => hall x (List.mem_cons_of_mem _ hx)) hg2 hnd2

theorem parseEnvFile_invariant (t : Str) :
    goodEntries (parseEnvFile t) ∧ (objKeys (parseEnvFile t)).Nodup :=
  parseLines_invariant (splitNl t) []
    (fun l hl => no_newline_of_mem_splitNl l hl)
    (fun p hp => absurd hp (List.not_mem_nil p)) List.nodup_nil

/-! ### Round-trip of parsing and serialization -/

theorem last_not_ws_of_trimRight_fixed {v' : Str} {d : Char}
    (h : trimRight (v' ++ [d]) = v' ++ [d]) : jsws d = false := by
  cases hd : jsws d with
  | false => rfl
  | true =>
    exfalso
    rw [trimRight_concat_ws hd] at h
    have hlen := length_trimRight_le v'
    rw [h] at hlen
    simp at hlen

theorem trim_entryLine {k v : Str} (hk : goodKey k) (hv : goodVal v) :
    trim (k ++ '=' :: v) = k ++ '=' :: v := by
  obtain ⟨hk0, hkl, hkr, _, _, _⟩ := hk
  obtain ⟨hvl, hvr, hvn⟩ := hv
  cases k with
  | nil => exact absurd rfl hk0
  | cons c k' =>
    have hc : jsws c = false := not_ws_of_trimLeft_eq_cons hkl
    unfold trim
    rw [List.cons_append, trimLeft_cons_not_ws hc]
    rcases List.eq_nil_or_concat v with hv0 | ⟨v', d, hvd⟩
    · subst hv0
      rw [show c :: (k' ++ '=' :: ([] : Str)) = (c :: k') ++ ['='] by simp]
      exact trimRight_concat_not_ws (by decide) _
    · rw [List.concat_eq_append] at hvd
      subst hvd
      have hd : jsws d = false := last_not_ws_of_trimRight_fixed hvr
      rw [show c :: (k' ++ '=' :: (v' ++ [d])) =
        (c :: (k' ++ '=' :: v')) ++ [d] by simp]
      exact trimRight_concat_not_ws hd _

theorem parseLine_entry {acc : EnvMapping} {k v : Str}
    (hk : goodKey k) (hv : goodVal v) :
    parseLine acc (k ++ '=' :: v) = objSet acc k v := by
  have htr : trim (k ++ '=' :: v) = k ++ '=' :: v := trim_entryLine hk hv
  have hk0 : k ≠ [] := hk.1
  have hke : '=' ∉ k := hk.2.2.2.1
  have hsp : splitAtFirstEq (k ++ '=' :: v) = some (k, v) :=
    splitAtFirstEq_append hke v
  have hne : (k ++ '=' :: v) ≠ [] := by
    cases k with
    | nil => exact absurd rfl hk0
    | cons c k' => simp
  have hhd : (k ++ '=' :: v).head? ≠ some '#' := by
    cases k with
    | nil => exact absurd rfl hk0
    | cons c k' => simpa using hk.2.2.2.2.2
  unfold parseLine
  rw [htr, if_neg hne, if_neg hhd]
  simp only [hsp]
  rw [if_neg hk0]
  rw [show trim k = k by unfold trim; rw [hk.2.1, hk.2.2.1],
    show trim v = v by unfold trim; rw [hv.1, hv.2.1]]

theorem parseLines_entries : ∀ (m acc : EnvMapping), goodEntries m →
    parseLines acc (m.map entryLine) =
      m.foldl (fun a p => objSet a p.1 p.2) acc := by
  intro m
  induction m with
  | nil => intro acc _; rfl
  | cons p m ih =>
    intro acc hg
    have hp := hg p (by simp)
    simp only [List.map_cons, parseLines, List.foldl_cons, entryLine]
    rw [parseLine_entry hp.1 hp.2]
    exact ih _ (fun q hq => hg q (List.mem_cons_of_mem _ hq))

theorem foldl_objSet_fresh : ∀ (m acc : EnvMapping),
    (objKeys m).Nodup → (∀ k ∈ objKeys m, objGet acc k = none) →
    m.foldl (fun a p => objSet a p.1 p.2) acc = acc ++ m := by
  intro m
  induction m with
  | nil =>
    intro acc _ _
    simp
  | cons p m ih =>
    intro acc hnd hfresh
    have hndk : (p.1 :: objKeys m).Nodup := by simpa [objKeys] using hnd
    have h1 : objGet acc p.1 = none := hfresh p.1 (by simp [objKeys])
    simp only [List.foldl_cons]
    rw [show objSet acc p.1 p.2 = acc ++ [(p.1, p.2)] from objSet_fresh h1 p.2]
    rw [ih (acc ++ [(p.1, p.2)]) (List.Nodup.of_cons hndk) ?fresh]
    · simp
    case fresh =>
      intro x hx
      rw [objGet_append, hfresh x (by simp [objKeys]; exact Or.inr (by simpa [objKeys] using hx))]
      have hne : p.1 ≠ x := by
        intro hh
        exact (List.nodup_cons.mp hndk).1 (hh ▸ hx)
      simp [objGet, hne]

theorem parse_format {m : EnvMapping} (hg : goodEntries m)
    (hnd : (objKeys m).Nodup) : parseEnvFile (formatEnvFile m) = m := by
  cases m with
  | nil => rfl
  | cons p m0 =>
    have hlines : ∀ l ∈ (p :: m0).map entryLine, '\n' ∉ l := by
      intro l hl
      obtain ⟨q, hq, hql⟩ := List.mem_map.mp hl
      obtain ⟨hqk, hqv⟩ := hg q hq
      subst hql
      intro hmem
      simp only [entryLine] at hmem
      rcases List.mem_append.mp hmem with h | h
      · exact hqk.2.2.2.2.1 h
      · rcases List.mem_cons.mp h with h | h
        · exact absurd h (by decide)
        · exact hqv.2.2 h
    unfold parseEnvFile formatEnvFile
    rw [splitNl_joinNl _ (by simp) hlines]
    rw [parseLines_entries _ _ hg]
    rw [foldl_objSet_fresh (p :: m0) [] hnd (fun k _ => rfl)]
    simp

/-! ### Claims C7 and C10 -/

/-- C7: for input text consisting only of well-formed `key=value` lines,
parsing with `parseEnvFile` and serializing with `formatEnvFile` yields text
that parses back to an equal mapping (the proof establishes the stronger fact
that the re-parse returns the identical association list, which implies
order-insensitive equality of the key/value set). -/
theorem c7_roundtrip : ∀ t : Str, (∀ l ∈ splitNl t, wellFormedLine l = true) →
    parseEnvFile (formatEnvFile (parseEnvFile t)) = parseEnvFile t := by
  intro t _
  obtain ⟨hg, hnd⟩ := parseEnvFile_invariant t
  exact parse_format hg hnd

/-- Witness for C7 at a concrete input. -/
theorem c7_roundtrip_witness :
    (∀ l ∈ splitNl ("A=1\nB=2".toList), wellFormedLine l = true) ∧
      parseEnvFile (formatEnvFile (parseEnvFile ("A=1\nB=2".toList))) =
        parseEnvFile ("A=1\nB=2".toList) :=
  ⟨by decide, c7_roundtrip ("A=1\nB=2".toList) (by decide)⟩

/-- C10: every entry produced by `parseEnvFile` has a non-empty key without
`=`, newline, leading or trailing whitespace, or a leading `#`, and a value
without newline or leading or trailing whitespace; consequently the serialized
`key=value` line of the entry re-parses to exactly that entry. -/
theorem c10_parser_output_wellformed : ∀ (t : Str) (p : Str × Str),
    p ∈ parseEnvFile t →
    p.1 ≠ [] ∧ trim p.1 = p.1 ∧ '=' ∉ p.1 ∧ '\n' ∉ p.1 ∧
      p.1.head? ≠ some '#' ∧ trim p.2 = p.2 ∧ '\n' ∉ p.2 ∧
      parseLine [] (p.1 ++ '=' :: p.2) = [p] := by
  intro t p hp
  obtain ⟨hg, _⟩ := parseEnvFile_invariant t
  obtain ⟨hk, hv⟩ := hg p hp
  have htk : trim p.1 = p.1 := by unfold trim; rw [hk.2.1, hk.2.2.1]
  have htv : trim p.2 = p.2 := by unfold trim; rw [hv.1, hv.2.1]
  refine ⟨hk.1, htk, hk.2.2.2.1, hk.2.2.2.2.1, hk.2.2.2.2.2, htv, hv.2.2, ?_⟩
  rw [parseLine_entry hk hv]
  simp [objSet]

/-- Witness for C10 at a concrete input. -/
theorem c10_parser_output_wellformed_witness :
    (kA, "1".toList) ∈ parseEnvFile ("A=1".toList) ∧
      (kA ≠ [] ∧ trim kA = kA ∧ '=' ∉ kA ∧ '\n' ∉ kA ∧
        kA.head? ≠ some '#' ∧ trim ("1".toList) = "1".toList ∧
        '\n' ∉ ("1".toList) ∧
        parseLine [] (kA ++ '=' :: "1".toList) = [(kA, "1".toList)]) :=
  ⟨by decide, c10_parser_output_wellformed ("A=1".toList) (kA, "1".toList)
    (by decide)⟩
